import Mathlib

/-!
Verification of the template variable engine (`src/utils/templateEngine.ts`)
and the bounded error log (`src/utils/errorHandler.ts`) of the prompt_box
repository.

Strings are modelled as `List Char`.  The JavaScript regular expression
`/\{([^}]+)\}/g` used by both `extractVariables` and `applyVariables`
matches, at each scan position, an opening brace `{`, a nonempty run of
characters other than `}` (the greedy `[^}]+`, which necessarily stops at
the first `}` following the `{`), and that closing `}`.  On failure the
scan advances one character.  The scanner `scan` below implements exactly
this decomposition of the template into literal characters and variable
spans.  `Record<string, string>` value mappings are modelled as
association lists with first-match lookup; `values[key] ?? ''` becomes
`lookupVar`, returning `[]` for absent keys.
-/

namespace PromptBox

/-- The set of characters removed by JavaScript `String.prototype.trim`:
WhiteSpace and LineTerminator code points. -/
def isJsWhitespace (c : Char) : Bool :=
  let n := c.toNat
  n = 0x20 || n = 0x09 || n = 0x0A || n = 0x0D || n = 0x0B || n = 0x0C ||
  n = 0xA0 || n = 0x1680 || (0x2000 ≤ n && n ≤ 0x200A) ||
  n = 0x2028 || n = 0x2029 || n = 0x202F || n = 0x205F ||
  n = 0x3000 || n = 0xFEFF

/-- JavaScript `String.prototype.trim`: drop whitespace from both ends. -/
def trim (l : List Char) : List Char :=
  ((l.dropWhile isJsWhitespace).reverse.dropWhile isJsWhitespace).reverse

/-- A segment of the template as decomposed by the global regex scan:
either a literal character (not part of any match) or the interior of a
matched `{...}` span. -/
inductive Seg where
  | lit (c : Char)
  | var (interior : List Char)
deriving DecidableEq, Repr

/-- Split a character list at its first `}`: returns the (possibly empty)
prefix of non-`}` characters and the remainder after that `}`, or `none`
when no `}` occurs. -/
def breakClose : List Char → Option (List Char × List Char)
  | [] => none
  | c :: rest =>
    if c = '}' then some ([], rest)
    else
      match breakClose rest with
      | some (b, a) => some (c :: b, a)
      | none => none

/-- Attempt the regex match `([^}]+)\}` on the text following a `{`:
succeeds iff a `}` occurs and at least one character precedes the first
one, returning the interior and the rest after the closing brace. -/
def splitVar (l : List Char) : Option (List Char × List Char) :=
  match breakClose l with
  | some ([], _) => none
  | some (i, r) => some (i, r)
  | none => none

/-- Fuelled scanner; `fuel` bounds the number of steps, each of which
consumes at least one character.  At a `{` the regex match is attempted;
on success the whole span is consumed, on failure the scan advances one
character, leaving the `{` as a literal. -/
def scanF : Nat → List Char → List Seg
  | 0, _ => []
  | _ + 1, [] => []
  | fuel + 1, c :: rest =>
    if c = '{' then
      match splitVar rest with
      | some (i, r) => Seg.var i :: scanF fuel r
      | none => Seg.lit '{' :: scanF fuel rest
    else
      Seg.lit c :: scanF fuel rest

/-- The decomposition of a template into literal characters and matched
variable spans, exactly as the global regex scan produces it. -/
def scan (l : List Char) : List Seg := scanF l.length l

/-- Body of the extraction loop (templateEngine.ts, lines 14-19): trim the
match's interior, discard empty names, and add new names to the
insertion-ordered set. -/
def insertName (acc : List (List Char)) (s : Seg) : List (List Char) :=
  match s with
  | Seg.lit _ => acc
  | Seg.var i =>
    let name := trim i
    if name = [] then acc
    else if name ∈ acc then acc
    else acc ++ [name]

/-- `extractVariables` (templateEngine.ts, lines 9-22): iterate over all
matches, trim each interior, discard empty names, and insert the rest
into an insertion-ordered set. -/
def extractVariables (template : List Char) : List (List Char) :=
  (scan template).foldl insertName []

/-- Association-list lookup modelling `values[key] ?? ''` on a
`Record<string, string>`: absent keys resolve to the empty string. -/
def lookupVar : List (List Char × List Char) → List Char → List Char
  | [], _ => []
  | (k, v) :: rest, n => if k = n then v else lookupVar rest n

/-- Rendering of one segment by `applyVariables`: literal characters pass
through; a matched span is replaced by the value of its trimmed name. -/
def renderSeg (values : List (List Char × List Char)) : Seg → List Char
  | Seg.lit c => [c]
  | Seg.var i => lookupVar values (trim i)

/-- `applyVariables` (templateEngine.ts, lines 32-46): replace every
matched span by the looked-up value of its trimmed interior name, leaving
everything else unchanged. -/
def applyVariables (template : List Char)
    (values : List (List Char × List Char)) : List Char :=
  ((scan template).map (renderSeg values)).flatten

/-- String-level wrapper of `extractVariables`. -/
def extractVariablesS (template : String) : List String :=
  (extractVariables template.toList).map String.mk

/-- String-level wrapper of `applyVariables`. -/
def applyVariablesS (template : String) (values : List (String × String)) :
    String :=
  String.mk (applyVariables template.toList
    (values.map (fun p => (p.1.toList, p.2.toList))))

/-- The sequence of trimmed, nonempty variable names contributed by the
matches of a template, in left-to-right match order and with duplicates
retained. -/
def namesSeq (t : List Char) : List (List Char) :=
  (scan t).filterMap
    (fun s =>
      match s with
      | Seg.var i => if trim i = [] then none else some (trim i)
      | Seg.lit _ => none)

/-- Reference form of first-occurrence de-duplication: keep each element's
first occurrence, deleting all its later occurrences. -/
def dedupKeepFirst {α : Type} [DecidableEq α] : List α → List α
  | [] => []
  | a :: l => a :: dedupKeepFirst (l.filter (fun x => x ≠ a))
termination_by l => l.length
decreasing_by
  simp only [List.length_cons]
  exact Nat.lt_succ_of_le (List.length_filter_le _ _)

/-- Number of (possibly overlapping) occurrences of `pat` as a contiguous
substring of `s`. -/
def countOcc (s pat : List Char) : Nat :=
  ((List.range (s.length + 1)).filter
    (fun i => (s.drop i).take pat.length = pat)).length

/-- Whether a segment is a matched span whose trimmed interior is `name`. -/
def isRefOf (name : List Char) (s : Seg) : Bool :=
  match s with
  | Seg.var i => trim i = name
  | Seg.lit _ => false

/-- Number of references of the variable `name` in a template. -/
def countVarRefs (t name : List Char) : Nat :=
  ((scan t).filter (isRefOf name)).length

/-- `maxLogSize` (errorHandler.ts, line 39). -/
def maxLogSize : Nat := 100

/-- State transition of `ErrorHandler.logError` (errorHandler.ts, lines
62-66) on the in-memory log: push the new entry, then drop the oldest one
when the bound is exceeded. -/
def logError {E : Type} (log : List E) (e : E) : List E :=
  let pushed := log ++ [e]
  if maxLogSize < pushed.length then pushed.tail else pushed

/-- `ErrorHandler.getErrorLog` (errorHandler.ts, lines 119-124): with a
truthy limit, return the last `limit` entries (`slice(-limit)`); with no
limit (or the falsy limit 0) return a copy of the whole log. -/
def getErrorLog {E : Type} (log : List E) (limit : Option Nat) : List E :=
  match limit with
  | some l => if l = 0 then log else log.drop (log.length - l)
  | none => log

/-- The log obtained by starting from the initial empty log and calling
`logError` once for each element of `es`, in order. -/
def runLog {E : Type} (es : List E) : List E :=
  es.foldl logError []

/-! ### Properties of the matcher -/

theorem breakClose_eq_some {l b a : List Char}
    (h : breakClose l = some (b, a)) : l = b ++ '}' :: a ∧ '}' ∉ b := by
  induction l generalizing b a with
  | nil => simp [breakClose] at h
  | cons c rest ih =>
    by_cases hc : c = '}'
    · subst hc
      simp [breakClose] at h
      obtain ⟨hb, ha⟩ := h
      subst hb; subst ha
      simp
    · simp only [breakClose, if_neg hc] at h
      cases hbc : breakClose rest with
      | none => rw [hbc] at h; simp at h
      | some p =>
        obtain ⟨b', a'⟩ := p
        rw [hbc] at h
        simp at h
        obtain ⟨hb, ha⟩ := h
        obtain ⟨hl, hnb⟩ := ih hbc
        subst ha
        rw [← hb, hl]
        constructor
        · simp
        · simp [hnb]
          exact fun hcc => hc hcc.symm

theorem breakClose_eq_none {l : List Char} (h : '}' ∉ l) :
    breakClose l = none := by
  induction l with
  | nil => rfl
  | cons c rest ih =>
    simp at h
    obtain ⟨hc, hrest⟩ := h
    have hc2 : ¬c = '}' := fun hcc => hc hcc.symm
    simp [breakClose, hc2, ih hrest]

theorem breakClose_append {b a : List Char} (hb : '}' ∉ b) :
    breakClose (b ++ '}' :: a) = some (b, a) := by
  induction b with
  | nil => simp [breakClose]
  | cons c rest ih =>
    simp at hb
    obtain ⟨hc, hrest⟩ := hb
    have hc2 : ¬c = '}' := fun hcc => hc hcc.symm
    simp [breakClose, hc2, ih hrest]

theorem splitVar_eq_some {l i r : List Char} :
    splitVar l = some (i, r) ↔ i ≠ [] ∧ '}' ∉ i ∧ l = i ++ '}' :: r := by
  constructor
  · intro h
    unfold splitVar at h
    cases hbc : breakClose l with
    | none => rw [hbc] at h; simp at h
    | some p =>
      obtain ⟨b, a⟩ := p
      rw [hbc] at h
      obtain ⟨hl, hnb⟩ := breakClose_eq_some hbc
      cases b with
      | nil => simp at h
      | cons x xs =>
        simp at h
        obtain ⟨hb, ha⟩ := h
        subst ha
        rw [← hb]
        exact ⟨by simp, hnb, hl⟩
  · rintro ⟨hne, hni, hl⟩
    subst hl
    unfold splitVar
    rw [breakClose_append hni]
    cases i with
    | nil => exact absurd rfl hne
    | cons x xs => rfl

theorem splitVar_eq_none {l : List Char} (h : '}' ∉ l) :
    splitVar l = none := by
  unfold splitVar
  rw [breakClose_eq_none h]

theorem scanF_agree :
    ∀ (fuel₁ fuel₂ : Nat) (l : List Char), l.length ≤ fuel₁ →
      l.length ≤ fuel₂ → scanF fuel₁ l = scanF fuel₂ l := by
  intro fuel₁
  induction fuel₁ with
  | zero =>
    intro fuel₂ l h₁ _
    have hl : l = [] := List.eq_nil_of_length_eq_zero (Nat.le_zero.mp h₁)
    subst hl
    cases fuel₂ <;> rfl
  | succ n ih =>
    intro fuel₂ l h₁ h₂
    cases l with
    | nil => cases fuel₂ <;> rfl
    | cons c rest =>
      cases fuel₂ with
      | zero => simp at h₂
      | succ m =>
        simp only [List.length_cons, Nat.succ_le_succ_iff] at h₁ h₂
        by_cases hc : c = '{'
        · subst hc
          cases hsv : splitVar rest with
          | none => simp [scanF, hsv, ih m rest h₁ h₂]
          | some p =>
            obtain ⟨i, r⟩ := p
            obtain ⟨hne, hni, hrest⟩ := splitVar_eq_some.mp hsv
            have hr : r.length ≤ rest.length := by
              rw [hrest]; simp; omega
            simp [scanF, hsv, ih m r (le_trans hr h₁) (le_trans hr h₂)]
        · simp [scanF, hc, ih m rest h₁ h₂]

theorem scan_nil : scan [] = [] := rfl

theorem scan_cons_lit {c : Char} (l : List Char) (hc : c ≠ '{') :
    scan (c :: l) = Seg.lit c :: scan l := by
  simp [scan, scanF, hc]

theorem scan_brace_some {l i r : List Char}
    (h : splitVar l = some (i, r)) :
    scan ('{' :: l) = Seg.var i :: scan r := by
  obtain ⟨hne, hni, hl⟩ := splitVar_eq_some.mp h
  have hr : r.length ≤ l.length := by rw [hl]; simp; omega
  simp only [scan, List.length_cons, scanF, if_pos rfl, h]
  exact congrArg _ (scanF_agree l.length r.length r hr le_rfl)

theorem scan_brace_none {l : List Char} (h : splitVar l = none) :
    scan ('{' :: l) = Seg.lit '{' :: scan l := by
  simp [scan, scanF, h]

theorem scan_matched {i t : List Char} (hni : '}' ∉ i) (hne : i ≠ []) :
    scan ('{' :: (i ++ '}' :: t)) = Seg.var i :: scan t :=
  scan_brace_some (splitVar_eq_some.mpr ⟨hne, hni, rfl⟩)

theorem breakClose_none_iff {l : List Char} :
    breakClose l = none ↔ '}' ∉ l := by
  constructor
  · intro h hmem
    induction l with
    | nil => simp at hmem
    | cons c rest ih =>
      by_cases hc : c = '}'
      · simp [breakClose, hc] at h
      · simp only [breakClose, if_neg hc] at h
        cases hbc : breakClose rest with
        | some p => rw [hbc] at h; obtain ⟨b, a⟩ := p; simp at h
        | none =>
          rcases List.mem_cons.mp hmem with hm | hm
          · exact hc hm.symm
          · exact ih hbc hm
  · exact breakClose_eq_none

theorem splitVar_close_head (x : List Char) : splitVar ('}' :: x) = none := by
  simp [splitVar, breakClose]

theorem scan_no_close {l : List Char} (h : '}' ∉ l) :
    scan l = l.map Seg.lit := by
  induction l with
  | nil => rfl
  | cons c rest ih =>
    simp at h
    obtain ⟨_, hrest⟩ := h
    by_cases hcb : c = '{'
    · subst hcb
      rw [scan_brace_none (splitVar_eq_none hrest), ih hrest, List.map_cons]
    · rw [scan_cons_lit rest hcb, ih hrest, List.map_cons]

theorem scan_append_no_close :
    ∀ (t s : List Char), '}' ∉ s → scan (t ++ s) = scan t ++ s.map Seg.lit
  | [], s, hs => by simpa using scan_no_close hs
  | c :: t', s, hs => by
    by_cases hc : c = '{'
    · subst hc
      cases hsv : splitVar t' with
      | some p =>
        obtain ⟨i, r⟩ := p
        obtain ⟨hne, hni, ht'⟩ := splitVar_eq_some.mp hsv
        have hsv2 : splitVar (t' ++ s) = some (i, r ++ s) :=
          splitVar_eq_some.mpr ⟨hne, hni, by rw [ht']; simp⟩
        have heq : ('{' :: t') ++ s = '{' :: (t' ++ s) := rfl
        rw [heq, scan_brace_some hsv2, scan_brace_some hsv,
          scan_append_no_close r s hs, List.cons_append]
      | none =>
        have hsv2 : splitVar (t' ++ s) = none := by
          cases hbc : breakClose t' with
          | none =>
            have hnt' : '}' ∉ t' := breakClose_none_iff.mp hbc
            refine splitVar_eq_none ?_
            simp [hnt', hs]
          | some p =>
            obtain ⟨b, a⟩ := p
            cases b with
            | cons x xs => rw [splitVar, hbc] at hsv; simp at hsv
            | nil =>
              obtain ⟨ht', _⟩ := breakClose_eq_some hbc
              simp only [List.nil_append] at ht'
              rw [ht', List.cons_append]
              exact splitVar_close_head _
        have heq : ('{' :: t') ++ s = '{' :: (t' ++ s) := rfl
        rw [heq, scan_brace_none hsv2, scan_brace_none hsv,
          scan_append_no_close t' s hs, List.cons_append]
    · have heq : (c :: t') ++ s = c :: (t' ++ s) := rfl
      rw [heq, scan_cons_lit _ hc, scan_cons_lit _ hc,
        scan_append_no_close t' s hs, List.cons_append]
termination_by t _ _ => t.length
decreasing_by
  all_goals first
    | (subst ht'; simp only [List.length_append, List.length_cons]; omega)
    | (simp only [List.length_cons]; omega)

theorem flatten_map_singleton (s : List Char) :
    (s.map (fun c => [c])).flatten = s := by
  induction s <;> simp_all

theorem applyVariables_append_no_close (t s : List Char)
    (V : List (List Char × List Char)) (hs : '}' ∉ s) :
    applyVariables (t ++ s) V = applyVariables t V ++ s := by
  unfold applyVariables
  rw [scan_append_no_close t s hs, List.map_append, List.flatten_append]
  congr 1
  rw [List.map_map]
  have hcomp : renderSeg V ∘ Seg.lit = fun c => [c] := rfl
  rw [hcomp, flatten_map_singleton]

theorem foldl_insertName_lits (s : List Char) :
    ∀ acc, (s.map Seg.lit).foldl insertName acc = acc := by
  induction s with
  | nil => intro acc; rfl
  | cons c rest ih =>
    intro acc
    rw [List.map_cons, List.foldl_cons]
    exact ih acc

theorem extractVariables_append_no_close (t s : List Char) (hs : '}' ∉ s) :
    extractVariables (t ++ s) = extractVariables t := by
  unfold extractVariables
  rw [scan_append_no_close t s hs, List.foldl_append, foldl_insertName_lits]

theorem applyVariables_ext {t : List Char} {V W : List (List Char × List Char)}
    (h : ∀ i, Seg.var i ∈ scan t →
      lookupVar V (trim i) = lookupVar W (trim i)) :
    applyVariables t V = applyVariables t W := by
  unfold applyVariables
  congr 1
  apply List.map_congr_left
  intro s hs
  cases s with
  | lit c => rfl
  | var i => exact h i hs

/-! ### First-occurrence de-duplication -/

theorem foldl_insertName_eq (segs : List Seg) : ∀ acc,
    segs.foldl insertName acc =
      (segs.filterMap (fun s =>
        match s with
        | Seg.var i => if trim i = [] then none else some (trim i)
        | Seg.lit _ => none)).foldl
        (fun acc n => if n ∈ acc then acc else acc ++ [n]) acc := by
  induction segs with
  | nil => intro acc; rfl
  | cons s rest ih =>
    intro acc
    cases s with
    | lit c =>
      rw [List.foldl_cons, List.filterMap_cons]
      exact ih acc
    | var i =>
      by_cases hi : trim i = []
      · rw [List.foldl_cons, List.filterMap_cons]
        simp only [insertName, hi, if_pos rfl, ite_true]
        exact ih acc
      · rw [List.foldl_cons, List.filterMap_cons]
        simp only [insertName, hi, if_neg hi, ite_false, List.foldl_cons]
        exact ih _

theorem foldl_insertDistinct (l : List (List Char)) :
    ∀ acc : List (List Char),
      l.foldl (fun acc n => if n ∈ acc then acc else acc ++ [n]) acc
        = acc ++ dedupKeepFirst (l.filter (fun x => x ∉ acc)) := by
  induction l with
  | nil => intro acc; simp [dedupKeepFirst]
  | cons a l ih =>
    intro acc
    by_cases ha : a ∈ acc
    · rw [List.foldl_cons]
      simp only [if_pos ha]
      rw [ih acc, List.filter_cons]
      simp [ha]
    · rw [List.foldl_cons]
      simp only [if_neg ha]
      rw [ih (acc ++ [a]), List.filter_cons]
      have hcond : decide (a ∉ acc) = true := by simp [ha]
      rw [if_pos hcond, dedupKeepFirst, List.append_assoc,
        List.singleton_append]
      congr 2
      rw [List.filter_filter]
      congr 1
      apply List.filter_congr
      intro x _
      by_cases h1 : x = a <;> by_cases h2 : x ∈ acc <;> simp [h1, h2]

theorem mem_dedupKeepFirst {α : Type} [DecidableEq α] :
    ∀ (l : List α) (x : α), x ∈ dedupKeepFirst l → x ∈ l
  | [], x, h => by simp [dedupKeepFirst] at h
  | a :: l, x, h => by
    rw [dedupKeepFirst] at h
    rcases List.mem_cons.mp h with h | h
    · exact List.mem_cons.mpr (Or.inl h)
    · exact List.mem_cons.mpr
        (Or.inr (List.mem_of_mem_filter (mem_dedupKeepFirst _ _ h)))
termination_by l _ _ => l.length
decreasing_by
  simp only [List.length_cons]
  exact Nat.lt_succ_of_le (List.length_filter_le _ _)

theorem nodup_dedupKeepFirst {α : Type} [DecidableEq α] :
    ∀ l : List α, (dedupKeepFirst l).Nodup
  | [] => by simp [dedupKeepFirst]
  | a :: l => by
    rw [dedupKeepFirst]
    refine List.nodup_cons.mpr ⟨?_, nodup_dedupKeepFirst _⟩
    intro hmem
    have hf := List.of_mem_filter (mem_dedupKeepFirst _ _ hmem)
    simp at hf
termination_by l => l.length
decreasing_by
  simp only [List.length_cons]
  exact Nat.lt_succ_of_le (List.length_filter_le _ _)

theorem extractVariables_eq_dedup (t : List Char) :
    extractVariables t = dedupKeepFirst (namesSeq t) := by
  unfold extractVariables namesSeq
  rw [foldl_insertName_eq, foldl_insertDistinct]
  simp only [List.nil_append]
  congr 1
  have : ∀ x : List Char, (x ∉ ([] : List (List Char))) = True := by
    intro x; simp
  calc (List.filterMap _ (scan t)).filter (fun x => x ∉ ([] : List (List Char)))
      = (List.filterMap _ (scan t)).filter (fun _ => true) := by
        apply List.filter_congr; intro x _; simp
    _ = _ := List.filter_true _

theorem mem_foldl_insertName :
    ∀ (segs : List Seg) (acc : List (List Char)) (n : List Char),
      n ∈ segs.foldl insertName acc →
        n ∈ acc ∨ ∃ i, Seg.var i ∈ segs ∧ trim i = n ∧ n ≠ [] := by
  intro segs
  induction segs with
  | nil => intro acc n h; exact Or.inl h
  | cons s rest ih =>
    intro acc n h
    rw [List.foldl_cons] at h
    rcases ih _ n h with hacc | ⟨i, hi, hti, hni⟩
    · cases s with
      | lit c => exact Or.inl hacc
      | var i =>
        simp only [insertName] at hacc
        by_cases h1 : trim i = []
        · rw [if_pos h1] at hacc; exact Or.inl hacc
        · rw [if_neg h1] at hacc
          by_cases h2 : trim i ∈ acc
          · rw [if_pos h2] at hacc; exact Or.inl hacc
          · rw [if_neg h2] at hacc
            rcases List.mem_append.mp hacc with hl | hr
            · exact Or.inl hl
            · have hn : n = trim i := List.mem_singleton.mp hr
              refine Or.inr ⟨i, List.mem_cons_self _ _, hn.symm, ?_⟩
              rw [hn]; exact h1
    · exact Or.inr ⟨i, List.mem_cons_of_mem _ hi, hti, hni⟩

theorem mem_extractVariables {t : List Char} {n : List Char}
    (h : n ∈ extractVariables t) :
    ∃ i, Seg.var i ∈ scan t ∧ trim i = n ∧ n ≠ [] := by
  rcases mem_foldl_insertName (scan t) [] n h with hacc | hex
  · simp at hacc
  · exact hex

/-! ### Whitespace normalization -/

theorem dropWhile_all {p : Char → Bool} {l : List Char} (x : List Char)
    (h : ∀ c ∈ l, p c = true) :
    List.dropWhile p (l ++ x) = List.dropWhile p x := by
  induction l with
  | nil => rfl
  | cons c rest ih =>
    rw [List.cons_append, List.dropWhile_cons_of_pos
      (h c (List.mem_cons_self _ _))]
    exact ih fun d hd => h d (List.mem_cons_of_mem _ hd)

theorem trim_prepad {ws x : List Char}
    (h : ∀ c ∈ ws, isJsWhitespace c = true) :
    trim (ws ++ x) = trim x := by
  unfold trim
  rw [dropWhile_all x h]

theorem dropWhile_append_ne_nil {p : Char → Bool} {l : List Char}
    (x : List Char) (h : List.dropWhile p l ≠ []) :
    List.dropWhile p (l ++ x) = List.dropWhile p l ++ x := by
  induction l with
  | nil => exact absurd rfl h
  | cons c rest ih =>
    by_cases hc : p c = true
    · rw [List.dropWhile_cons_of_pos hc] at h
      rw [List.cons_append, List.dropWhile_cons_of_pos hc,
        List.dropWhile_cons_of_pos hc]
      exact ih h
    · have hc2 : ¬p c = true := hc
      rw [List.cons_append, List.dropWhile_cons_of_neg hc2,
        List.dropWhile_cons_of_neg hc2, List.cons_append]

theorem trim_postpad {ws x : List Char}
    (h : ∀ c ∈ ws, isJsWhitespace c = true) :
    trim (x ++ ws) = trim x := by
  unfold trim
  by_cases hx : List.dropWhile isJsWhitespace x = []
  · have hxall : ∀ c ∈ x, isJsWhitespace c = true :=
      List.dropWhile_eq_nil_iff.mp hx
    have hall : ∀ c ∈ x ++ ws, isJsWhitespace c = true := by
      intro c hc
      rcases List.mem_append.mp hc with hc | hc
      · exact hxall c hc
      · exact h c hc
    rw [List.dropWhile_eq_nil_iff.mpr hall, hx]
  · rw [dropWhile_append_ne_nil ws hx, List.reverse_append]
    rw [dropWhile_all _ (by intro c hc; exact h c (List.mem_reverse.mp hc))]

theorem trim_pad {ws₁ ws₂ i : List Char}
    (h₁ : ∀ c ∈ ws₁, isJsWhitespace c = true)
    (h₂ : ∀ c ∈ ws₂, isJsWhitespace c = true) :
    trim (ws₁ ++ i ++ ws₂) = trim i := by
  rw [List.append_assoc, trim_prepad h₁, trim_postpad h₂]

/-! ### The bounded error log -/

theorem runLog_append_singleton {E : Type} (es : List E) (e : E) :
    runLog (es ++ [e]) = logError (runLog es) e := by
  unfold runLog
  rw [List.foldl_append]
  rfl

theorem runLog_eq_drop {E : Type} (es : List E) :
    runLog es = es.drop (es.length - maxLogSize) := by
  induction es using List.reverseRecOn with
  | nil => rfl
  | append_singleton es e ih =>
    rw [runLog_append_singleton, ih]
    simp only [logError, maxLogSize]
    by_cases h : es.length < 100
    · have h0 : es.length - 100 = 0 := by omega
      rw [h0, List.drop_zero]
      rw [if_neg (by
        simp only [List.length_append, List.length_cons, List.length_nil]
        omega)]
      have h1 : (es ++ [e]).length - 100 = 0 := by
        simp only [List.length_append, List.length_cons, List.length_nil]
        omega
      rw [h1, List.drop_zero]
    · have hlen : (es.drop (es.length - 100)).length = 100 := by
        rw [List.length_drop]; omega
      have hpos : 100 < (es.drop (es.length - 100) ++ [e]).length := by
        rw [List.length_append, hlen]
        simp
      rw [if_pos hpos]
      have hne : es.drop (es.length - 100) ≠ [] := by
        intro hnil
        rw [hnil] at hlen
        simp at hlen
      rw [List.tail_append_of_ne_nil hne, List.tail_drop]
      have hlen2 : (es ++ [e]).length - 100 = (es.length - 100) + 1 := by
        simp only [List.length_append, List.length_cons, List.length_nil]
        omega
      rw [hlen2, List.drop_append_of_le_length
        (show es.length - 100 + 1 ≤ es.length by omega)]

/-! ### The claims -/

/-- C1: For every template string, extractVariables returns the distinct
trimmed variable names in the order they were first encountered scanning
left-to-right, with no duplicates by trimmed name: the result equals the
first-occurrence de-duplication of the full left-to-right sequence of
nonempty trimmed names, and it contains no duplicates. -/
theorem c1_extract_first_occurrence (t : List Char) :
    extractVariables t = dedupKeepFirst (namesSeq t) ∧
    (extractVariables t).Nodup := by
  refine ⟨extractVariables_eq_dedup t, ?_⟩
  rw [extractVariables_eq_dedup t]
  exact nodup_dedupKeepFirst _

/-- C2 (counterexample): the claim states that a span whose trimmed
interior name is empty is replaced with the empty string; but the code
looks the empty name up in the mapping like any other key, so with the
mapping `{"": "X"}` the template `"{ }"` renders as `"X"`, not `""`. -/
theorem c2_counterexample :
    applyVariablesS "{ }" [("", "X")] = "X" ∧
    applyVariablesS "{ }" [("", "X")] ≠ "" := by
  constructor
  · rfl
  · decide

/-- C2 (amended): applyVariables replaces each matched brace span (braces
included) with the mapping's value for the trimmed interior name,
defaulting to the empty string when that (possibly empty) trimmed name is
absent from the mapping; in particular apply("Hi {name}", {}) == "Hi ",
and every occurrence of a duplicate variable substitutes identically. -/
theorem c2_substitution (i t : List Char) (V : List (List Char × List Char))
    (hni : '}' ∉ i) (hne : i ≠ []) :
    applyVariables ('{' :: (i ++ '}' :: t)) V
        = lookupVar V (trim i) ++ applyVariables t V ∧
    applyVariablesS "Hi {name}" [("name", "John")] = "Hi John" ∧
    applyVariablesS "Hi {name}" [] = "Hi " ∧
    applyVariablesS "{a} and {a}" [("a", "x")] = "x and x" := by
  refine ⟨?_, by decide, by decide, by decide⟩
  unfold applyVariables
  rw [scan_matched hni hne, List.map_cons, List.flatten_cons]
  rfl

theorem c2_substitution_witness :
    applyVariables ('{' :: (['a'] ++ '}' :: [])) []
        = lookupVar [] (trim ['a']) ++ applyVariables [] [] ∧
    applyVariablesS "Hi {name}" [("name", "John")] = "Hi John" ∧
    applyVariablesS "Hi {name}" [] = "Hi " ∧
    applyVariablesS "{a} and {a}" [("a", "x")] = "x and x" :=
  c2_substitution ['a'] [] [] (by decide) (by decide)

/-- C3: Both extractVariables and applyVariables are total Lean functions
over all templates and mappings (they return plain values, with no error
case in their types), and a lookup of a key not present in the mapping
resolves to the empty string; consequently substituting with an explicit
empty-string binding for a missing key changes nothing. -/
theorem c3_total_missing_key (t : List Char)
    (V : List (List Char × List Char)) (k : List Char)
    (hk : ∀ p ∈ V, p.1 ≠ k) :
    lookupVar V k = [] ∧
    applyVariables t ((k, []) :: V) = applyVariables t V := by
  have hlk : lookupVar V k = [] := by
    induction V with
    | nil => rfl
    | cons p rest ih =>
      obtain ⟨k', v⟩ := p
      have h1 : k' ≠ k := hk _ (List.mem_cons_self _ _)
      rw [lookupVar, if_neg h1]
      exact ih fun q hq => hk q (List.mem_cons_of_mem _ hq)
  refine ⟨hlk, ?_⟩
  apply applyVariables_ext
  intro i _
  rw [lookupVar]
  by_cases h : k = trim i
  · rw [if_pos h, ← h]
    exact hlk.symm
  · rw [if_neg h]

theorem c3_total_missing_key_witness :
    lookupVar [(['a'], ['x'])] ['b'] = [] ∧
    applyVariables ['{', 'a', '}'] ((['b'], []) :: [(['a'], ['x'])])
        = applyVariables ['{', 'a', '}'] [(['a'], ['x'])] :=
  c3_total_missing_key ['{', 'a', '}'] [(['a'], ['x'])] ['b'] (by decide)

/-- C4: applyVariables leaves unmatched dangling braces verbatim: any
suffix containing no closing brace passes through substitution unchanged
and contributes nothing to extraction, and only spans recognized by the
shared matcher are rewritten; in particular
apply("literal \x7b unclosed", {}) == "literal \x7b unclosed". -/
theorem c4_dangling_verbatim (t s : List Char)
    (V : List (List Char × List Char)) (hs : '}' ∉ s) :
    applyVariables (t ++ s) V = applyVariables t V ++ s ∧
    extractVariables (t ++ s) = extractVariables t ∧
    applyVariablesS "literal \x7b unclosed" [] = "literal \x7b unclosed" ∧
    extractVariablesS "literal \x7b unclosed" = [] :=
  ⟨applyVariables_append_no_close t s V hs,
   extractVariables_append_no_close t s hs, by decide, by decide⟩

theorem c4_dangling_verbatim_witness :
    applyVariables (['{', 'a', '}'] ++ ['{', 'x']) []
        = applyVariables ['{', 'a', '}'] [] ++ ['{', 'x'] ∧
    extractVariables (['{', 'a', '}'] ++ ['{', 'x'])
        = extractVariables ['{', 'a', '}'] ∧
    applyVariablesS "literal \x7b unclosed" [] = "literal \x7b unclosed" ∧
    extractVariablesS "literal \x7b unclosed" = [] :=
  c4_dangling_verbatim ['{', 'a', '}'] ['{', 'x'] [] (by decide)

/-- C5: Brace matching is non-greedy: a span `{i}` whose interior contains
no `}` always stops at that first `}`, consuming exactly the span and
leaving the rest to be scanned independently; in particular
extract("{a}{b}") == ["a", "b"]. -/
theorem c5_non_greedy (i t : List Char) (hni : '}' ∉ i) (hne : i ≠ []) :
    scan ('{' :: (i ++ '}' :: t)) = Seg.var i :: scan t ∧
    extractVariablesS "{a}{b}" = ["a", "b"] :=
  ⟨scan_matched hni hne, by decide⟩

theorem c5_non_greedy_witness :
    scan ('{' :: (['a'] ++ '}' :: ['{', 'b', '}']))
        = Seg.var ['a'] :: scan ['{', 'b', '}'] ∧
    extractVariablesS "{a}{b}" = ["a", "b"] :=
  c5_non_greedy ['a'] ['{', 'b', '}'] (by decide) (by decide)

/-- C6: Candidates whose interior is empty after trimming are discarded:
every extracted name is nonempty, and extract("{}") == [],
extract("{   }") == [], extract("") == []. -/
theorem c6_empty_names_discarded (t n : List Char)
    (h : n ∈ extractVariables t) :
    n ≠ [] ∧
    extractVariablesS "{}" = [] ∧
    extractVariablesS "{   }" = [] ∧
    extractVariablesS "" = [] ∧
    extractVariablesS "no vars here" = [] := by
  obtain ⟨i, _, _, hne⟩ := mem_extractVariables h
  exact ⟨hne, by decide, by decide, by decide, by decide⟩

theorem c6_empty_names_discarded_witness :
    ['a'] ≠ ([] : List Char) ∧
    extractVariablesS "{}" = [] ∧
    extractVariablesS "{   }" = [] ∧
    extractVariablesS "" = [] ∧
    extractVariablesS "no vars here" = [] :=
  c6_empty_names_discarded ['{', 'a', '}'] ['a'] (by decide)

/-- C7 (counterexample): with the merely distinct non-empty sentinels
"x" for a and "xx" for b, apply("{a}{b}") renders "xxx", in which the
sentinel "x" occurs three times as a substring although the variable a is
referenced only once, refuting the claimed count equality. -/
theorem c7_counterexample :
    extractVariablesS "{a}{b}" = ["a", "b"] ∧
    applyVariablesS "{a}{b}" [("a", "x"), ("b", "xx")] = "xxx" ∧
    countOcc ("xxx".toList) ("x".toList) = 3 ∧
    countVarRefs ("{a}{b}".toList) ("a".toList) = 1 ∧
    (3 : Nat) ≠ 1 :=
  ⟨by decide, by decide, by decide, by decide, by decide⟩

/-- C7 (amended): for every mapping assigning values to the extracted
names, the value of each extracted name appears in the rendered output at
least once, as a contiguous substring; the per-sentinel occurrence-count
equality additionally requires the sentinels to be fresh (not occurring
inside the rest of the rendered material), not merely distinct. -/
theorem c7_sentinel_at_least_once (t : List Char)
    (V : List (List Char × List Char)) (v : List Char)
    (hv : v ∈ extractVariables t) :
    List.IsInfix (lookupVar V v) (applyVariables t V) := by
  obtain ⟨i, hmem, hti, _⟩ := mem_extractVariables hv
  unfold applyVariables
  have hr : lookupVar V v = renderSeg V (Seg.var i) := by
    rw [renderSeg, hti]
  rw [hr]
  exact List.infix_of_mem_flatten (List.mem_map_of_mem _ hmem)

theorem c7_sentinel_at_least_once_witness :
    List.IsInfix (lookupVar [(['a'], ['x'])] ['a'])
      (applyVariables ['{', 'a', '}'] [(['a'], ['x'])]) :=
  c7_sentinel_at_least_once ['{', 'a', '}'] [(['a'], ['x'])] ['a']
    (by decide)

/-- C8: Both operations are pure transforms of their arguments: the
embedding gives them no internal state, so re-extraction from the same
template is definitionally the same sequence, and the rendered output
depends only on the template and the values the mapping assigns to the
trimmed names of the template's matched spans. -/
theorem c8_pure_dependence (t : List Char)
    (V W : List (List Char × List Char))
    (h : ∀ i, Seg.var i ∈ scan t →
      lookupVar V (trim i) = lookupVar W (trim i)) :
    applyVariables t V = applyVariables t W :=
  applyVariables_ext h

theorem c8_pure_dependence_witness :
    applyVariables ['{', 'a', '}'] [(['a'], ['x'])]
        = applyVariables ['{', 'a', '}'] [(['a'], ['x']), (['b'], ['y'])] :=
  c8_pure_dependence ['{', 'a', '}'] [(['a'], ['x'])]
    [(['a'], ['x']), (['b'], ['y'])]
    (by
      intro i hi
      rw [show scan ['{', 'a', '}'] = [Seg.var ['a']] from by decide] at hi
      have hieq : i = ['a'] := Seg.var.inj (List.mem_singleton.mp hi)
      subst hieq
      decide)

/-- C9: Whitespace-tolerant normalization: padding an interior with
whitespace on either side does not change the trimmed name, hence
`{ name }` and `{name}` denote the same variable and substitute the same
value; interior whitespace is preserved; in particular
extract("{ topic }") == ["topic"] and extract("{first name}") ==
["first name"]. -/
theorem c9_whitespace_normalization (ws₁ ws₂ i : List Char)
    (V : List (List Char × List Char))
    (h₁ : ∀ c ∈ ws₁, isJsWhitespace c = true)
    (h₂ : ∀ c ∈ ws₂, isJsWhitespace c = true) :
    trim (ws₁ ++ i ++ ws₂) = trim i ∧
    renderSeg V (Seg.var (ws₁ ++ i ++ ws₂)) = renderSeg V (Seg.var i) ∧
    extractVariablesS "{ topic }" = ["topic"] ∧
    extractVariablesS "{first name}" = ["first name"] ∧
    extractVariablesS "{ name } {name}" = ["name"] := by
  have htrim := trim_pad (i := i) h₁ h₂
  refine ⟨htrim, ?_, by decide, by decide, by decide⟩
  rw [renderSeg, renderSeg, htrim]

theorem c9_whitespace_normalization_witness :
    trim ([' '] ++ ['t', 'o', 'p', 'i', 'c'] ++ [' '])
        = trim ['t', 'o', 'p', 'i', 'c'] ∧
    renderSeg [] (Seg.var ([' '] ++ ['t', 'o', 'p', 'i', 'c'] ++ [' ']))
        = renderSeg [] (Seg.var ['t', 'o', 'p', 'i', 'c']) ∧
    extractVariablesS "{ topic }" = ["topic"] ∧
    extractVariablesS "{first name}" = ["first name"] ∧
    extractVariablesS "{ name } {name}" = ["name"] :=
  c9_whitespace_normalization [' '] [' '] ['t', 'o', 'p', 'i', 'c'] []
    (by decide) (by decide)

/-- C10: The in-memory error log is bounded: after any sequence of
logError calls starting from the empty log, the log equals the last
maxLogSize (= 100) entries of everything ever logged (the oldest entries
are the ones removed), its length never exceeds 100, and getErrorLog
returns a suffix of the logged sequence of length at most 100 for every
limit argument. -/
theorem c10_error_log_ring_buffer (E : Type) (es : List E)
    (lim : Option Nat) :
    runLog es = es.drop (es.length - maxLogSize) ∧
    (runLog es).length ≤ maxLogSize ∧
    (getErrorLog (runLog es) lim).length ≤ maxLogSize ∧
    List.IsSuffix (getErrorLog (runLog es) lim) es := by
  have hrun := runLog_eq_drop es
  have hlen : (runLog es).length ≤ maxLogSize := by
    rw [hrun, List.length_drop]
    simp only [maxLogSize]
    omega
  have h2 : List.IsSuffix (getErrorLog (runLog es) lim) (runLog es) := by
    cases lim with
    | none => exact List.suffix_refl _
    | some l =>
      by_cases hl : l = 0
      · subst hl
        exact List.suffix_refl _
      · simp only [getErrorLog, if_neg hl]
        exact List.drop_suffix _ _
  have h1 : List.IsSuffix (runLog es) es := by
    rw [hrun]
    exact List.drop_suffix _ _
  exact ⟨hrun, hlen, le_trans h2.length_le hlen, h2.trans h1⟩

end PromptBox
